import Mathlib

set_option maxRecDepth 8192

/-!
Verification of `comprehensive_fix.py` (EmberPlatform/ember-core).

The script reads one file, ensures a `#define UNUSED(x)` marker exists after a
fixed include line, then applies seven regular-expression rewrite rules that
insert `UNUSED(<name>);` statements after matched variable declarations, and
writes the result back.

We shallowly embed the script: text is `List Char`; the regex fragment actually
used by the script (literals, character classes under `+` and `*`, sequencing,
alternation) is given a Python-faithful backtracking semantics (`matchesR`
returns the list of possible remainders in backtracking priority order — greedy
quantifiers, alternatives in written order).  `re.sub` becomes a left-to-right
scan (`subScan`), `str.replace` becomes `pyReplace` (replaces every
occurrence), and the `__main__` block becomes `runMain` over an explicit trace
of file operations.  Character classes are modelled at ASCII: `\s` as the six
ASCII whitespace characters and `\w` as alphanumerics plus underscore, which is
the fragment exercised by C source text.
-/

/-- Text is a list of characters. -/
abbrev Str := List Char

/-- Coerce a string literal to `Str`. -/
def strL (s : String) : Str := s.data

/-- Python `\s` on the ASCII range: space, tab, newline, carriage return,
vertical tab, form feed. -/
def wsChar (c : Char) : Bool :=
  c = ' ' || c = '\t' || c = '\n' || c = '\r' || c = '\x0b' || c = '\x0c'

/-- Python `\w` on the ASCII range: letters, digits, underscore. -/
def wordChar (c : Char) : Bool := c.isAlphanum || c = '_'

/-- The class `[^;]`: any character other than a semicolon. -/
def nonSemiChar (c : Char) : Bool := !(c = ';')

/-- The regex fragment used by `comprehensive_fix.py`: string literals,
one-or-more / zero-or-more of a character class, sequencing, alternation. -/
inductive RE where
  | lit (l : Str)
  | plus (cc : Char → Bool)
  | star (cc : Char → Bool)
  | seq (a b : RE)
  | alt (a b : RE)

/-- Length of the longest prefix of `s` made of characters of the class. -/
def munch (cc : Char → Bool) : Str → Nat
  | [] => 0
  | c :: r => if cc c then munch cc r + 1 else 0

/-- `[s.drop n, s.drop (n-1), ..., s.drop 1]`: the remainders after consuming
`n` down to `1` characters, greedy (longest consumed) first. -/
def dropsDesc (s : Str) : Nat → List Str
  | 0 => []
  | n + 1 => s.drop (n + 1) :: dropsDesc s n

/-- All ways a regex can match a prefix of `s`, as the list of remainders, in
Python backtracking priority order: quantifiers greedy, alternatives in the
order written. -/
def matchesR : RE → Str → List Str
  | .lit l, s => if l.isPrefixOf s then [s.drop l.length] else []
  | .plus cc, s => dropsDesc s (munch cc s)
  | .star cc, s => dropsDesc s (munch cc s) ++ [s]
  | .seq a b, s => (matchesR a s).flatMap (matchesR b)
  | .alt a b, s => matchesR a s ++ matchesR b s

/-- Anchored match of a two-group pattern `(g1)(g2)` at the start of `s`,
returning `(group 1, group 2, remainder)` for the backtracking-first match, or
`none`.  Every rule of the script has the shape `(\s+)(declaration)`. -/
def matchGroups (g1 g2 : RE) (s : Str) : Option (Str × Str × Str) :=
  (matchesR g1 s).findSome? fun s1 =>
    (matchesR g2 s1).head?.map fun s2 =>
      (s.take (s.length - s1.length), s1.take (s1.length - s2.length), s2)

/-- The common tail `\s+\w+\s*=\s*[^;]+;` shared by all seven declaration
patterns (whitespace, variable name, `=`, initializer, semicolon). -/
def declTail : RE :=
  .seq (.plus wsChar) (.seq (.plus wordChar) (.seq (.star wsChar)
    (.seq (.lit (strL "=")) (.seq (.star wsChar)
      (.seq (.plus nonSemiChar) (.lit (strL ";")))))))

/-- The type part `const\s+char\*` of pattern 2. -/
def tyConstChar : RE := .seq (.lit (strL "const")) (.seq (.plus wsChar) (.lit (strL "char*")))

/-- The type part `ember_\w+\*` of pattern 3. -/
def tyEmberPtr : RE := .seq (.lit (strL "ember_")) (.seq (.plus wordChar) (.lit (strL "*")))

/-- A declaration pattern: a type part followed by the common tail. -/
def declOf (ty : RE) : RE := .seq ty declTail

/-- The group-2 parts of the seven patterns of `comprehensive_fix.py` in their
declared order; every full pattern is `(\s+)(<declaration>)`, so group 1 is the
fixed `\s+` (see `subScan`). -/
def patterns : List RE :=
  [ declOf (.lit (strL "ember_value")),
    declOf tyConstChar,
    declOf tyEmberPtr,
    declOf (.lit (strL "uint32_t")),
    declOf (.lit (strL "bool")),
    declOf (.lit (strL "EmberPackage*")),
    declOf (.lit (strL "int")) ]

/-- The alternation of the secondary name-extraction regex
`(?:ember_\w+\*|const\s+char\*|uint32_t|bool|EmberPackage\*|int|ember_value)`,
alternatives in written order. -/
def extAlt : RE :=
  .alt tyEmberPtr (.alt tyConstChar (.alt (.lit (strL "uint32_t"))
    (.alt (.lit (strL "bool")) (.alt (.lit (strL "EmberPackage*"))
      (.alt (.lit (strL "int")) (.lit (strL "ember_value")))))))

/-- Anchored attempt of the extraction regex `(?:...alts...)\s+(\w+)` at the
start of `s`, returning the captured `\w+` (the variable name). -/
def matchExtract (s : Str) : Option Str :=
  (matchesR extAlt s).findSome? fun s1 =>
    (matchesR (.plus wsChar) s1).findSome? fun s2 =>
      (matchesR (.plus wordChar) s2).head?.map fun s3 =>
        s2.take (s2.length - s3.length)

/-- `re.search` of the extraction regex: try each start position left to
right. -/
def searchExtract : Str → Option Str
  | [] => none
  | c :: r =>
    match matchExtract (c :: r) with
    | some nm => some nm
    | none => searchExtract r

/-- The `replacement` function of the script: given group 1 (the matched
whitespace, called `indent` there) and group 2 (the declaration), produce the
replacement text; when name extraction fails, the match is returned
unchanged. -/
def replacement (indent assignment : Str) : Str :=
  match searchExtract assignment with
  | some nm =>
    indent ++ assignment ++ ('\n' :: (indent ++ (strL "UNUSED(" ++ nm ++ strL ");")))
  | none => indent ++ assignment

/-- The `re.sub` scan for one rule `(\s+)(p)`: walk the text left to right,
replacing each non-overlapping match (found in the text being scanned, never in
already-produced replacement text) and copying unmatched characters.  `fuel`
bounds the recursion; every match consumes at least one character, so
`fuel = s.length` is always enough (see `reSub`). -/
def subScan (p : RE) : Nat → Str → Str
  | 0, s => s
  | _ + 1, [] => []
  | fuel + 1, c :: r =>
    match matchGroups (.plus wsChar) p (c :: r) with
    | some (a, b, rest) => replacement a b ++ subScan p fuel rest
    | none => c :: subScan p fuel r

/-- `re.sub(pattern, replacement, content)` for one rule. -/
def reSub (p : RE) (s : Str) : Str := subScan p s.length s

/-- A piece of the scanned text: an unmatched span (`inl`) or a match of the
rule, as its two groups (`inr`). -/
abbrev Piece := Sum Str (Str × Str)

/-- The pieces the `re.sub` scan cuts the input into, in order: the same scan
as `subScan`, but recording matches instead of replacing them. -/
def subPieces (p : RE) : Nat → Str → List Piece
  | 0, [] => []
  | 0, c :: r => [Sum.inl (c :: r)]
  | _ + 1, [] => []
  | fuel + 1, c :: r =>
    match matchGroups (.plus wsChar) p (c :: r) with
    | some (a, b, rest) => Sum.inr (a, b) :: subPieces p fuel rest
    | none => Sum.inl [c] :: subPieces p fuel r

/-- The text a piece covers in the input: the unmatched span, or the matched
whitespace followed by the matched declaration. -/
def pieceOrig : Piece → Str
  | Sum.inl cs => cs
  | Sum.inr (a, b) => a ++ b

/-- The text a piece contributes to the output: the unmatched span, or the
result of the `replacement` function on the match's groups. -/
def pieceOut : Piece → Str
  | Sum.inl cs => cs
  | Sum.inr (a, b) => replacement a b

/-- The `for pattern in patterns` loop: each rule rewrites the output of the
previous one, in declared order. -/
def applyPatterns (content : Str) : Str :=
  patterns.foldl (fun acc p => reSub p acc) content

/-- The marker string `'#define UNUSED(x)'` whose absence triggers
insertion. -/
def unusedMarker : Str := strL "#define UNUSED(x)"

/-- The include line after which the macro block is inserted. -/
def includeLine : Str := strL "#include \"test_ember_internal.h\""

/-- The text appended to each copy of the include line by the insertion. -/
def markerBlock : Str :=
  strL "\n\n// Macro to mark variables as intentionally unused\n#define UNUSED(x) ((void)(x))"

/-- Substring containment, as Python's `in` on strings. -/
def containsSub (needle : Str) : Str → Bool
  | [] => needle.isEmpty
  | c :: r => needle.isPrefixOf (c :: r) || containsSub needle r

/-- Fuelled scan implementing Python `str.replace`: replace every
non-overlapping occurrence of `old`, left to right.  `fuel = s.length` is
enough when `old` is nonempty (see `pyReplace`). -/
def replaceScan (old new : Str) : Nat → Str → Str
  | 0, s => s
  | _ + 1, [] => []
  | fuel + 1, c :: r =>
    if old.isPrefixOf (c :: r) then new ++ replaceScan old new fuel ((c :: r).drop old.length)
    else c :: replaceScan old new fuel r

/-- Python `content.replace(old, new)` (every occurrence). -/
def pyReplace (old new s : Str) : Str := replaceScan old new s.length s

/-- Lines 12–14 of the script: if `'#define UNUSED(x)'` is not in the content,
`content.replace(includeLine, includeLine + markerBlock)`. -/
def ensureUnusedMarker (content : Str) : Str :=
  if containsSub unusedMarker content then content
  else pyReplace includeLine (includeLine ++ markerBlock) content

/-- The pure text transformation of `fix_all_unused_variables`: marker
insertion, then the seven rules in order. -/
def fix_all_unused_variables (content : Str) : Str :=
  applyPatterns (ensureUnusedMarker content)

/-- A file operation performed by one invocation. -/
inductive FileOp where
  | read (fn : String)
  | write (fn : String) (content : Str)
deriving DecidableEq

/-- Observable outcome of one invocation: stdout lines, exit code, and file
operations in order. -/
structure RunResult where
  stdout : List String
  exitCode : Nat
  ops : List FileOp
deriving DecidableEq

/-- The usage message printed on a wrong argument count. -/
def usageMsg : String := "Usage: python3 comprehensive_fix.py <filename>"

/-- Effect trace of `fix_all_unused_variables(filename)` followed by the
success print of `__main__`: the read happens first; if it fails the exception
propagates (no write, nonzero exit); otherwise the file is opened for writing
only after the whole transformed text exists, and it is written in full. -/
def runFix (fn : String) (readRes : Option Str) : RunResult :=
  match readRes with
  | none => ⟨[], 1, [FileOp.read fn]⟩
  | some content =>
    ⟨["Fixed unused variables in " ++ fn], 0,
      [FileOp.read fn, FileOp.write fn (fix_all_unused_variables content)]⟩

/-- The `__main__` block: `sys.argv` must have exactly two entries (script name
and filename); otherwise print the usage message and exit 1 without touching
any file. -/
def runMain (argv : List String) (readRes : Option Str) : RunResult :=
  if argv.length = 2 then runFix (argv.getD 1 "") readRes
  else ⟨[usageMsg], 1, []⟩

/-- A decl-pattern type part is good for extraction when any text it consumes
is nonempty and is re-consumed by the extraction alternation `extAlt`, leaving
an arbitrary continuation. -/
def TyGood (ty : RE) : Prop :=
  ∀ s m : Str, m ∈ matchesR ty s →
    ∃ t, s = t ++ m ∧ t ≠ [] ∧ ∀ z : Str, z ∈ matchesR extAlt (t ++ z)

theorem isPrefixOf_append_self : ∀ (l t : Str), l.isPrefixOf (l ++ t) = true := by
  intro l
  induction l with
  | nil => intro t; cases t <;> rfl
  | cons a as ih => intro t; simp [List.isPrefixOf, ih t]

theorem eq_append_of_isPrefixOf : ∀ {l s : Str}, l.isPrefixOf s = true → s = l ++ s.drop l.length := by
  intro l
  induction l with
  | nil => intro s _; simp
  | cons a as ih =>
    intro s h
    cases s with
    | nil => simp [List.isPrefixOf] at h
    | cons b bs =>
      simp only [List.isPrefixOf, Bool.and_eq_true, beq_iff_eq] at h
      obtain ⟨rfl, hpre⟩ := h
      simpa using congrArg (List.cons a) (ih hpre)

theorem isPrefixOf_iff_ex {l s : Str} : l.isPrefixOf s = true ↔ ∃ t, s = l ++ t := by
  constructor
  · intro h; exact ⟨s.drop l.length, eq_append_of_isPrefixOf h⟩
  · rintro ⟨t, rfl⟩; exact isPrefixOf_append_self l t

theorem mem_dropsDesc {s m : Str} : ∀ {n : Nat}, m ∈ dropsDesc s n → ∃ k, 0 < k ∧ k ≤ n ∧ m = s.drop k := by
  intro n
  induction n with
  | zero => intro h; simp [dropsDesc] at h
  | succ n ih =>
    intro h
    rw [dropsDesc] at h
    rcases List.mem_cons.mp h with h | h
    · exact ⟨n + 1, Nat.succ_pos n, Nat.le_refl _, h⟩
    · obtain ⟨k, hk0, hkn, hm⟩ := ih h
      exact ⟨k, hk0, Nat.le_succ_of_le hkn, hm⟩

theorem drop_mem_dropsDesc {s : Str} : ∀ {n k : Nat}, 0 < k → k ≤ n → s.drop k ∈ dropsDesc s n := by
  intro n
  induction n with
  | zero => intro k hk0 hkn; omega
  | succ n ih =>
    intro k hk0 hkn
    rw [dropsDesc]
    by_cases hk : k = n + 1
    · subst hk; exact List.mem_cons_self _ _
    · exact List.mem_cons_of_mem _ (ih hk0 (by omega))

theorem le_munch_append {cc : Char → Bool} : ∀ {t : Str} (m : Str), (∀ c ∈ t, cc c = true) → t.length ≤ munch cc (t ++ m) := by
  intro t
  induction t with
  | nil => intro m _; simp
  | cons a as ih =>
    intro m h
    have ha : cc a = true := h a (List.mem_cons_self a as)
    simp only [List.cons_append, munch, ha, if_true, List.length_cons, Nat.add_le_add_iff_right]
    exact ih m (fun c hc => h c (List.mem_cons_of_mem a hc))

theorem all_take_munch {cc : Char → Bool} : ∀ {s : Str} {k : Nat}, k ≤ munch cc s → ∀ c ∈ s.take k, cc c = true := by
  intro s
  induction s with
  | nil => intro k hk c hc; simp at hc
  | cons a r ih =>
    intro k hk c hc
    cases k with
    | zero => simp at hc
    | succ k =>
      rw [munch] at hk
      by_cases ha : cc a = true
      · rw [if_pos ha] at hk
        rw [List.take_succ_cons] at hc
        rcases List.mem_cons.mp hc with rfl | hc
        · exact ha
        · exact ih (Nat.le_of_succ_le_succ hk) c hc
      · rw [if_neg ha] at hk; omega

theorem plus_mem_inv {cc : Char → Bool} {s m : Str} (h : m ∈ matchesR (.plus cc) s) :
    ∃ t, s = t ++ m ∧ t ≠ [] ∧ ∀ c ∈ t, cc c = true := by
  rw [matchesR] at h
  obtain ⟨k, hk0, hkn, rfl⟩ := mem_dropsDesc h
  refine ⟨s.take k, (List.take_append_drop k s).symm, ?_, all_take_munch hkn⟩
  intro hnil
  rcases List.take_eq_nil_iff.mp hnil with h0 | h0
  · omega
  · subst h0; simp [munch] at hkn; omega

theorem plus_mem_intro {cc : Char → Bool} {t : Str} (m : Str) (ht : t ≠ []) (hall : ∀ c ∈ t, cc c = true) :
    m ∈ matchesR (.plus cc) (t ++ m) := by
  rw [matchesR]
  have h1 : t.length ≤ munch cc (t ++ m) := le_munch_append m hall
  have h0 : 0 < t.length := List.length_pos.mpr ht
  have hmem := drop_mem_dropsDesc (s := t ++ m) h0 h1
  rwa [List.drop_left] at hmem

theorem plus_ne_nil {cc : Char → Bool} {c : Char} (r : Str) (hc : cc c = true) :
    matchesR (.plus cc) (c :: r) ≠ [] := by
  rw [matchesR, munch, if_pos hc, dropsDesc]
  simp

theorem matchesR_suffix : ∀ (r : RE) {s m : Str}, m ∈ matchesR r s → ∃ t, s = t ++ m := by
  intro r
  induction r with
  | lit l =>
    intro s m h
    rw [matchesR] at h
    by_cases hp : l.isPrefixOf s = true
    · rw [if_pos hp] at h
      rcases List.mem_singleton.mp h with rfl
      exact ⟨l, eq_append_of_isPrefixOf hp⟩
    · rw [if_neg hp] at h; simp at h
  | plus cc =>
    intro s m h
    obtain ⟨t, ht, _, _⟩ := plus_mem_inv h
    exact ⟨t, ht⟩
  | star cc =>
    intro s m h
    rw [matchesR] at h
    rcases List.mem_append.mp h with h | h
    · obtain ⟨k, _, _, rfl⟩ := mem_dropsDesc h
      exact ⟨s.take k, (List.take_append_drop k s).symm⟩
    · rcases List.mem_singleton.mp h with rfl
      exact ⟨[], rfl⟩
  | seq a b iha ihb =>
    intro s m h
    rw [matchesR] at h
    obtain ⟨m1, hm1, hm⟩ := List.mem_flatMap.mp h
    obtain ⟨t1, rfl⟩ := iha hm1
    obtain ⟨t2, rfl⟩ := ihb hm
    exact ⟨t1 ++ t2, (List.append_assoc t1 t2 m).symm⟩
  | alt a b iha ihb =>
    intro s m h
    rw [matchesR] at h
    rcases List.mem_append.mp h with h | h
    · exact iha h
    · exact ihb h

theorem mem_of_head? {α : Type} {l : List α} {x : α} (h : l.head? = some x) : x ∈ l := by
  cases l with
  | nil => simp at h
  | cons a t =>
    simp at h
    subst h
    exact List.mem_cons_self a t

theorem head?_isSome_of_ne {α : Type} {l : List α} (h : l ≠ []) : l.head?.isSome = true := by
  cases l with
  | nil => exact absurd rfl h
  | cons a t => rfl

theorem findSome?_eq_some_ex {α β : Type} {f : α → Option β} :
    ∀ {l : List α} {v : β}, l.findSome? f = some v → ∃ x, x ∈ l ∧ f x = some v := by
  intro l
  induction l with
  | nil => intro v h; simp [List.findSome?] at h
  | cons a t ih =>
    intro v h
    cases hfa : f a with
    | some b =>
      rw [List.findSome?_cons, hfa] at h
      exact ⟨a, List.mem_cons_self a t, hfa.trans h⟩
    | none =>
      rw [List.findSome?_cons, hfa] at h
      obtain ⟨x, hx, hfx⟩ := ih h
      exact ⟨x, List.mem_cons_of_mem a hx, hfx⟩

theorem findSome?_isSome_of_mem {α β : Type} {f : α → Option β} {x : α} :
    ∀ {l : List α}, x ∈ l → (f x).isSome = true → (l.findSome? f).isSome = true := by
  intro l
  induction l with
  | nil => intro h _; simp at h
  | cons a t ih =>
    intro hx hsome
    rw [List.findSome?_cons]
    cases hfa : f a with
    | some b => rfl
    | none =>
      rcases List.mem_cons.mp hx with rfl | hx
      · rw [hfa] at hsome; simp at hsome
      · exact ih hx hsome

theorem take_sub_append (t m : Str) : (t ++ m).take ((t ++ m).length - m.length) = t := by
  rw [List.length_append, Nat.add_sub_cancel, List.take_left]

theorem matchGroups_inv {g1 g2 : RE} {s a b rest : Str}
    (h : matchGroups g1 g2 s = some (a, b, rest)) :
    s = a ++ (b ++ rest) ∧ (b ++ rest) ∈ matchesR g1 s ∧
      (matchesR g2 (b ++ rest)).head? = some rest := by
  rw [matchGroups] at h
  obtain ⟨s1, hs1, hf⟩ := findSome?_eq_some_ex h
  cases hh : (matchesR g2 s1).head? with
  | none => rw [hh] at hf; simp at hf
  | some s2 =>
    rw [hh] at hf
    have hs2 : s2 ∈ matchesR g2 s1 := mem_of_head? hh
    obtain ⟨t1, rfl⟩ := matchesR_suffix g1 hs1
    obtain ⟨t2, rfl⟩ := matchesR_suffix g2 hs2
    rw [Option.map_some'] at hf
    rw [take_sub_append, take_sub_append] at hf
    obtain ⟨rfl, rfl, rfl⟩ : t1 = a ∧ t2 = b ∧ s2 = rest := by
      simpa using hf
    exact ⟨rfl, hs1, hh⟩

theorem matchGroups_some_decomp {cc : Char → Bool} {g2 : RE} {s a b rest : Str}
    (h : matchGroups (.plus cc) g2 s = some (a, b, rest)) :
    s = a ++ (b ++ rest) ∧ a ≠ [] := by
  obtain ⟨hs, hmem, _⟩ := matchGroups_inv h
  obtain ⟨t, ht, htne, _⟩ := plus_mem_inv hmem
  refine ⟨hs, ?_⟩
  have hta : t = a := by
    have : t ++ (b ++ rest) = a ++ (b ++ rest) := ht.symm.trans hs
    exact List.append_cancel_right this
  exact hta ▸ htne

theorem subPieces_tiles (p : RE) : ∀ (fuel : Nat) (s : Str),
    ((subPieces p fuel s).map pieceOrig).flatten = s := by
  intro fuel
  induction fuel with
  | zero => intro s; cases s <;> simp [subPieces, pieceOrig]
  | succ fuel ih =>
    intro s
    cases s with
    | nil => simp [subPieces]
    | cons c r =>
      cases hm : matchGroups (.plus wsChar) p (c :: r) with
      | none => simp [subPieces, hm, pieceOrig, ih r]
      | some abr =>
        obtain ⟨a, b, rest⟩ := abr
        obtain ⟨hs, -⟩ := matchGroups_some_decomp hm
        simp only [subPieces, hm, List.map_cons, pieceOrig, List.flatten_cons, ih rest]
        rw [List.append_assoc]
        exact hs.symm

theorem subScan_eq_pieces (p : RE) : ∀ (fuel : Nat) (s : Str),
    subScan p fuel s = ((subPieces p fuel s).map pieceOut).flatten := by
  intro fuel
  induction fuel with
  | zero => intro s; cases s <;> simp [subScan, subPieces, pieceOut]
  | succ fuel ih =>
    intro s
    cases s with
    | nil => simp [subScan, subPieces]
    | cons c r =>
      cases hm : matchGroups (.plus wsChar) p (c :: r) with
      | none => simp [subScan, subPieces, hm, pieceOut, ih r]
      | some abr =>
        obtain ⟨a, b, rest⟩ := abr
        simp [subScan, subPieces, hm, pieceOut, ih rest]

theorem containsSub_eq_false_no_occ {needle : Str} :
    ∀ {s : Str}, containsSub needle s = false → ∀ k, needle.isPrefixOf (s.drop k) = false := by
  intro s
  induction s with
  | nil =>
    intro h k
    rw [containsSub] at h
    cases needle with
    | nil => simp at h
    | cons a t => simp [List.isPrefixOf]
  | cons c r ih =>
    intro h k
    rw [containsSub, Bool.or_eq_false_iff] at h
    obtain ⟨h1, h2⟩ := h
    cases k with
    | zero => simpa using h1
    | succ k => simpa using ih h2 k

theorem replaceScan_id_of_no_occ {old : Str} (new : Str) :
    ∀ (s : Str), (∀ k, old.isPrefixOf (s.drop k) = false) → replaceScan old new s.length s = s := by
  intro s
  induction s with
  | nil => intro _; rfl
  | cons c r ih =>
    intro h
    have h0 : old.isPrefixOf (c :: r) = false := by simpa using h 0
    rw [List.length_cons, replaceScan, if_neg (by simp [h0])]
    have hr : replaceScan old new r.length r = r := ih (fun k => by simpa using h (k + 1))
    rw [hr]

theorem replaceScan_fuel_congr {old : Str} (new : Str) (ho : old ≠ []) :
    ∀ (n f1 f2 : Nat) (s : Str), s.length ≤ n → s.length ≤ f1 → s.length ≤ f2 →
      replaceScan old new f1 s = replaceScan old new f2 s := by
  intro n
  induction n with
  | zero =>
    intro f1 f2 s hn _ _
    have hs : s = [] := List.length_eq_zero.mp (Nat.le_zero.mp hn)
    subst hs
    cases f1 <;> cases f2 <;> rfl
  | succ n ih =>
    intro f1 f2 s hn h1 h2
    cases s with
    | nil => cases f1 <;> cases f2 <;> rfl
    | cons c r =>
      rw [List.length_cons] at hn h1 h2
      cases f1 with
      | zero => omega
      | succ f1 =>
        cases f2 with
        | zero => omega
        | succ f2 =>
          have hol : 1 ≤ old.length := by
            cases old with
            | nil => exact absurd rfl ho
            | cons x xs => simp
          rw [replaceScan, replaceScan]
          by_cases hp : old.isPrefixOf (c :: r) = true
          · rw [if_pos hp, if_pos hp]
            congr 1
            apply ih
            · simp only [List.length_drop, List.length_cons]; omega
            · simp only [List.length_drop, List.length_cons]; omega
            · simp only [List.length_drop, List.length_cons]; omega
          · rw [if_neg hp, if_neg hp]
            congr 1
            exact ih f1 f2 r (by omega) (by omega) (by omega)

theorem pyReplace_first_occ {old : Str} (new : Str) (ho : old ≠ []) :
    ∀ (x y : Str), (∀ k, k < x.length → old.isPrefixOf ((x ++ (old ++ y)).drop k) = false) →
      pyReplace old new (x ++ (old ++ y)) = x ++ (new ++ pyReplace old new y) := by
  intro x
  induction x with
  | nil =>
    intro y _
    cases old with
    | nil => exact absurd rfl ho
    | cons oc or' =>
      simp only [List.nil_append]
      have hlen : ((oc :: or') ++ y).length = (or'.length + y.length) + 1 := by
        simp only [List.cons_append, List.length_cons, List.length_append]
      rw [pyReplace, hlen, List.cons_append, replaceScan,
        if_pos (by simp [List.cons_append, isPrefixOf_append_self (oc :: or') y])]
      congr 1
      have hdrop : (oc :: (or' ++ y)).drop (oc :: or').length = y := by
        simp [List.cons_append, List.drop_left (oc :: or') y]
      rw [hdrop]
      exact replaceScan_fuel_congr new ho (or'.length + y.length) _ _ y
        (by omega) (by omega) (Nat.le_refl _)
  | cons a x ih =>
    intro y h
    have h0 : old.isPrefixOf (a :: (x ++ (old ++ y))) = false := by
      simpa [List.cons_append] using h 0 (by simp)
    have hlen : ((a :: x) ++ (old ++ y)).length = (x ++ (old ++ y)).length + 1 := by
      simp [List.cons_append]
    rw [pyReplace, hlen, List.cons_append, replaceScan, if_neg (by simp [h0])]
    have hrest : replaceScan old new (x ++ (old ++ y)).length (x ++ (old ++ y)) =
        x ++ (new ++ pyReplace old new y) :=
      ih y (fun k hk => by simpa [List.cons_append] using h (k + 1) (by simpa using Nat.succ_lt_succ hk))
    rw [hrest, List.cons_append]

theorem lit_matches_append (l t : Str) : matchesR (.lit l) (l ++ t) = [t] := by
  rw [matchesR, if_pos (isPrefixOf_append_self l t), List.drop_left]

theorem mem_matchesR_lit (l t : Str) : t ∈ matchesR (.lit l) (l ++ t) := by
  rw [lit_matches_append]
  exact List.mem_singleton.mpr rfl

theorem lit_mem_inv {l s m : Str} (h : m ∈ matchesR (.lit l) s) : s = l ++ m := by
  rw [matchesR] at h
  by_cases hp : l.isPrefixOf s = true
  · rw [if_pos hp] at h
    rcases List.mem_singleton.mp h with rfl
    exact eq_append_of_isPrefixOf hp
  · rw [if_neg hp] at h; simp at h

theorem mem_matchesR_alt_left {a b : RE} {s m : Str} (h : m ∈ matchesR a s) :
    m ∈ matchesR (.alt a b) s := by
  rw [matchesR]; exact List.mem_append_left _ h

theorem mem_matchesR_alt_right {a b : RE} {s m : Str} (h : m ∈ matchesR b s) :
    m ∈ matchesR (.alt a b) s := by
  rw [matchesR]; exact List.mem_append_right _ h

theorem mem_matchesR_seq {a b : RE} {s mid m : Str} (h1 : mid ∈ matchesR a s)
    (h2 : m ∈ matchesR b mid) : m ∈ matchesR (.seq a b) s := by
  rw [matchesR]; exact List.mem_flatMap.mpr ⟨mid, h1, h2⟩

theorem seq_mem_inv {a b : RE} {s m : Str} (h : m ∈ matchesR (.seq a b) s) :
    ∃ mid, mid ∈ matchesR a s ∧ m ∈ matchesR b mid := by
  rw [matchesR] at h; exact List.mem_flatMap.mp h

theorem extAlt_mem_emberPtr {w : Str} (hw : w ≠ []) (hall : ∀ c ∈ w, wordChar c = true) (z : Str) :
    z ∈ matchesR extAlt ((strL "ember_" ++ (w ++ strL "*")) ++ z) := by
  rw [extAlt]
  apply mem_matchesR_alt_left
  rw [tyEmberPtr, List.append_assoc, List.append_assoc]
  exact mem_matchesR_seq (mem_matchesR_lit _ _)
    (mem_matchesR_seq (plus_mem_intro _ hw hall) (mem_matchesR_lit _ _))

theorem extAlt_mem_constChar {u : Str} (hu : u ≠ []) (hall : ∀ c ∈ u, wsChar c = true) (z : Str) :
    z ∈ matchesR extAlt ((strL "const" ++ (u ++ strL "char*")) ++ z) := by
  rw [extAlt]
  apply mem_matchesR_alt_right
  apply mem_matchesR_alt_left
  rw [tyConstChar, List.append_assoc, List.append_assoc]
  exact mem_matchesR_seq (mem_matchesR_lit _ _)
    (mem_matchesR_seq (plus_mem_intro _ hu hall) (mem_matchesR_lit _ _))

theorem extAlt_mem_uint32 (z : Str) : z ∈ matchesR extAlt (strL "uint32_t" ++ z) := by
  rw [extAlt]
  apply mem_matchesR_alt_right
  apply mem_matchesR_alt_right
  apply mem_matchesR_alt_left
  exact mem_matchesR_lit _ _

theorem extAlt_mem_bool (z : Str) : z ∈ matchesR extAlt (strL "bool" ++ z) := by
  rw [extAlt]
  apply mem_matchesR_alt_right
  apply mem_matchesR_alt_right
  apply mem_matchesR_alt_right
  apply mem_matchesR_alt_left
  exact mem_matchesR_lit _ _

theorem extAlt_mem_emberPackage (z : Str) : z ∈ matchesR extAlt (strL "EmberPackage*" ++ z) := by
  rw [extAlt]
  apply mem_matchesR_alt_right
  apply mem_matchesR_alt_right
  apply mem_matchesR_alt_right
  apply mem_matchesR_alt_right
  apply mem_matchesR_alt_left
  exact mem_matchesR_lit _ _

theorem extAlt_mem_int (z : Str) : z ∈ matchesR extAlt (strL "int" ++ z) := by
  rw [extAlt]
  apply mem_matchesR_alt_right
  apply mem_matchesR_alt_right
  apply mem_matchesR_alt_right
  apply mem_matchesR_alt_right
  apply mem_matchesR_alt_right
  apply mem_matchesR_alt_left
  exact mem_matchesR_lit _ _

theorem extAlt_mem_emberValue (z : Str) : z ∈ matchesR extAlt (strL "ember_value" ++ z) := by
  rw [extAlt]
  apply mem_matchesR_alt_right
  apply mem_matchesR_alt_right
  apply mem_matchesR_alt_right
  apply mem_matchesR_alt_right
  apply mem_matchesR_alt_right
  apply mem_matchesR_alt_right
  exact mem_matchesR_lit _ _

theorem tyGood_of_lit {L : Str} (hne : L ≠ []) (hmem : ∀ z : Str, z ∈ matchesR extAlt (L ++ z)) :
    TyGood (.lit L) := by
  intro s m h
  exact ⟨L, lit_mem_inv h, hne, hmem⟩

theorem tyGood_constChar : TyGood tyConstChar := by
  intro s m h
  rw [tyConstChar] at h
  obtain ⟨m1, h1, h2⟩ := seq_mem_inv h
  obtain ⟨m2, h3, h4⟩ := seq_mem_inv h2
  have hs1 := lit_mem_inv h1
  obtain ⟨u, hm1, hu, hallu⟩ := plus_mem_inv h3
  have hm2 := lit_mem_inv h4
  refine ⟨strL "const" ++ (u ++ strL "char*"), ?_, by simp [strL], ?_⟩
  · rw [hs1, hm1, hm2]; simp [List.append_assoc]
  · intro z; exact extAlt_mem_constChar hu hallu z

theorem tyGood_emberPtr : TyGood tyEmberPtr := by
  intro s m h
  rw [tyEmberPtr] at h
  obtain ⟨m1, h1, h2⟩ := seq_mem_inv h
  obtain ⟨m2, h3, h4⟩ := seq_mem_inv h2
  have hs1 := lit_mem_inv h1
  obtain ⟨w, hm1, hw, hallw⟩ := plus_mem_inv h3
  have hm2 := lit_mem_inv h4
  refine ⟨strL "ember_" ++ (w ++ strL "*"), ?_, by simp [strL], ?_⟩
  · rw [hs1, hm1, hm2]; simp [List.append_assoc]
  · intro z; exact extAlt_mem_emberPtr hw hallw z

theorem matchExtract_isSome_of {s s1 s2 : Str}
    (h1 : s1 ∈ matchesR extAlt s) (h2 : s2 ∈ matchesR (.plus wsChar) s1)
    (h3 : matchesR (.plus wordChar) s2 ≠ []) : (matchExtract s).isSome = true := by
  rw [matchExtract]
  apply findSome?_isSome_of_mem h1
  apply findSome?_isSome_of_mem h2
  cases hh : (matchesR (.plus wordChar) s2).head? with
  | none =>
    have := head?_isSome_of_ne h3
    rw [hh] at this
    simp at this
  | some s3 => rfl

theorem searchExtract_eq_of_matchExtract {c : Char} {r : Str} {nm : Str}
    (h : matchExtract (c :: r) = some nm) : searchExtract (c :: r) = some nm := by
  rw [searchExtract, h]

theorem extract_of_declMatch {ty : RE} (hty : TyGood ty) {s a b rest : Str}
    (h : matchGroups (.plus wsChar) (declOf ty) s = some (a, b, rest)) :
    ∃ nm, searchExtract b = some nm ∧
      replacement a b = a ++ b ++ ('\n' :: (a ++ (strL "UNUSED(" ++ nm ++ strL ");"))) := by
  obtain ⟨hs, hmem1, hh⟩ := matchGroups_inv h
  have hmem2 : rest ∈ matchesR (declOf ty) (b ++ rest) := mem_of_head? hh
  rw [declOf] at hmem2
  obtain ⟨m1, hty_m, htail⟩ := seq_mem_inv hmem2
  obtain ⟨t, hbrest, htne, hext⟩ := hty (b ++ rest) m1 hty_m
  rw [declTail] at htail
  obtain ⟨u, hu, htail2⟩ := seq_mem_inv htail
  obtain ⟨w1, hm1u, hw1ne, hw1all⟩ := plus_mem_inv hu
  obtain ⟨v, hv, htail3⟩ := seq_mem_inv htail2
  obtain ⟨w2, huv, hw2ne, hw2all⟩ := plus_mem_inv hv
  obtain ⟨v1, hvv⟩ := matchesR_suffix _ htail3
  have hkey : b ++ rest = (t ++ (w1 ++ (w2 ++ v1))) ++ rest := by
    rw [hbrest, hm1u, huv, hvv]; simp [List.append_assoc]
  have hb : b = t ++ (w1 ++ (w2 ++ v1)) := List.append_cancel_right hkey
  have e1 : (w1 ++ (w2 ++ v1)) ∈ matchesR extAlt b := by
    rw [hb]; exact hext _
  have e2 : (w2 ++ v1) ∈ matchesR (.plus wsChar) (w1 ++ (w2 ++ v1)) :=
    plus_mem_intro _ hw1ne hw1all
  have e3 : matchesR (.plus wordChar) (w2 ++ v1) ≠ [] := by
    cases w2 with
    | nil => exact absurd rfl hw2ne
    | cons wc wr =>
      rw [List.cons_append]
      exact plus_ne_nil _ (hw2all wc (List.mem_cons_self wc wr))
  have hsome : (matchExtract b).isSome = true := matchExtract_isSome_of e1 e2 e3
  obtain ⟨nm, hnm⟩ := Option.isSome_iff_exists.mp hsome
  have hbne : b ≠ [] := by
    rw [hb]
    cases t with
    | nil => exact absurd rfl htne
    | cons tc tr => simp
  cases hbc : b with
  | nil => exact absurd hbc hbne
  | cons bc br =>
    rw [hbc] at hnm
    have hsearch : searchExtract (bc :: br) = some nm := searchExtract_eq_of_matchExtract hnm
    refine ⟨nm, hsearch, ?_⟩
    rw [replacement, hsearch]

/-- C1 counterexample: for the input file `a\n    const char* name = "hello";\n`,
which contains the line `    const char* name = "hello";`, one run does NOT
produce that line immediately followed by `    UNUSED(name);`: because group 1
of the pattern is `\s+`, the captured "indent" includes the preceding newline,
so the annotation line is separated from the declaration by a blank line. -/
theorem fix_example_not_immediately_followed :
    fix_all_unused_variables (strL "a\n    const char* name = \"hello\";\n") =
      strL "a\n    const char* name = \"hello\";\n\n    UNUSED(name);\n" ∧
    fix_all_unused_variables (strL "a\n    const char* name = \"hello\";\n") ≠
      strL "a\n    const char* name = \"hello\";\n    UNUSED(name);\n" := by
  constructor <;> decide

/-- C1 (amended): every non-overlapping match whose name extraction succeeds is
replaced by the captured whitespace (group 1, which is the full `\s+` match and
so includes any newlines preceding the declaration line), the declaration, a
newline, the captured whitespace again, and `UNUSED(<name>);`.  The annotation
therefore carries the declaration line's column indentation, but sits
immediately after the declaration only when the captured whitespace contains no
newline. -/
theorem replacement_inserts_unused_line (indent assignment nm : Str)
    (h : searchExtract assignment = some nm) :
    replacement indent assignment =
      indent ++ assignment ++ ('\n' :: (indent ++ (strL "UNUSED(" ++ nm ++ strL ");"))) := by
  rw [replacement, h]

/-- C1 witness: the example declaration with four-space indentation captured
behind a newline. -/
theorem replacement_inserts_unused_line_witness :
    searchExtract (strL "const char* name = \"hello\";") = some (strL "name") ∧
    replacement (strL "\n    ") (strL "const char* name = \"hello\";") =
      strL "\n    " ++ strL "const char* name = \"hello\";" ++
        ('\n' :: (strL "\n    " ++ (strL "UNUSED(" ++ strL "name" ++ strL ");"))) :=
  ⟨by decide, replacement_inserts_unused_line _ _ _ (by decide)⟩

/-- C2 counterexample: a file containing one declaration already followed by
its annotation is changed again by a second run — the declaration line still
matches the `const char*` pattern, so the run is not a no-op. -/
theorem second_run_inserts_again :
    fix_all_unused_variables (strL "    const char* name = \"x\";\n    UNUSED(name);") ≠
      strL "    const char* name = \"x\";\n    UNUSED(name);" := by decide

/-- C2 (amended): running the tool a second time on its own output is NOT
idempotent: the declaration line still matches its rule's pattern on the second
run (nothing checks for an existing annotation), so a duplicate
`UNUSED(<name>);` line is inserted after the declaration. -/
theorem second_run_duplicates_unused_line :
    fix_all_unused_variables (fix_all_unused_variables (strL "    const char* name = \"x\";")) =
      fix_all_unused_variables (strL "    const char* name = \"x\";") ++ strL "\n    UNUSED(name);" := by
  decide

/-- C3 counterexample: a text with two copies of the anchor include line and no
macro definition gets the macro block inserted after BOTH copies (Python
`str.replace` replaces every occurrence), not only after the first. -/
theorem marker_inserted_after_second_include :
    ensureUnusedMarker (includeLine ++ (strL "\nA\n" ++ (includeLine ++ strL "\n"))) =
      (includeLine ++ markerBlock) ++ (strL "\nA\n" ++ ((includeLine ++ markerBlock) ++ strL "\n")) ∧
    ensureUnusedMarker (includeLine ++ (strL "\nA\n" ++ (includeLine ++ strL "\n"))) ≠
      (includeLine ++ markerBlock) ++ (strL "\nA\n" ++ (includeLine ++ strL "\n")) := by
  constructor <;> decide

/-- C3 (amended): for a text without the macro definition whose first anchor
occurrence starts after prefix `x`, the ensure-marker step appends the macro
block to that occurrence AND recursively processes the remainder the same way,
so the block is inserted once after EVERY occurrence of the anchor line, not
only the first. -/
theorem ensureUnusedMarker_replaces_each_include (x y : Str)
    (hm : containsSub unusedMarker (x ++ (includeLine ++ y)) = false)
    (hx : ∀ k, k < x.length → includeLine.isPrefixOf ((x ++ (includeLine ++ y)).drop k) = false) :
    ensureUnusedMarker (x ++ (includeLine ++ y)) =
      x ++ ((includeLine ++ markerBlock) ++ pyReplace includeLine (includeLine ++ markerBlock) y) := by
  rw [ensureUnusedMarker, if_neg (by simp [hm])]
  exact pyReplace_first_occ _ (by decide) x y hx

/-- C3 witness: an anchor preceded by the two-character prefix `A\n`. -/
theorem ensureUnusedMarker_replaces_each_include_witness :
    ensureUnusedMarker (strL "A\n" ++ (includeLine ++ strL "\n")) =
      strL "A\n" ++ ((includeLine ++ markerBlock) ++
        pyReplace includeLine (includeLine ++ markerBlock) (strL "\n")) :=
  ensureUnusedMarker_replaces_each_include _ _ (by decide) (by decide)

/-- C4: if the anchor include line occurs nowhere in the text, the
ensure-marker step returns the text unchanged (no insertion, no error), and the
whole tool reduces to the rule-based rewriting alone. -/
theorem no_include_no_marker_insertion (s : Str) (h : containsSub includeLine s = false) :
    ensureUnusedMarker s = s ∧ fix_all_unused_variables s = applyPatterns s := by
  have hid : ensureUnusedMarker s = s := by
    rw [ensureUnusedMarker]
    split
    · rfl
    · exact replaceScan_id_of_no_occ _ s (containsSub_eq_false_no_occ h)
  exact ⟨hid, by rw [fix_all_unused_variables, hid]⟩

/-- C4 witness: a text with no include anchor. -/
theorem no_include_no_marker_insertion_witness :
    containsSub includeLine (strL "int x = 1;") = false ∧
      ensureUnusedMarker (strL "int x = 1;") = strL "int x = 1;" :=
  ⟨by decide, (no_include_no_marker_insertion _ (by decide)).1⟩

/-- C5: if the text already contains `#define UNUSED(x)`, the ensure-marker
step performs no insertion at all, so a re-run cannot produce a second copy of
the macro definition; the whole tool reduces to the rule-based rewriting. -/
theorem marker_present_no_insertion (s : Str) (h : containsSub unusedMarker s = true) :
    ensureUnusedMarker s = s ∧ fix_all_unused_variables s = applyPatterns s := by
  have hid : ensureUnusedMarker s = s := by rw [ensureUnusedMarker, if_pos h]
  exact ⟨hid, by rw [fix_all_unused_variables, hid]⟩

/-- C5 witness: the marker string itself contains the marker. -/
theorem marker_present_no_insertion_witness :
    containsSub unusedMarker unusedMarker = true ∧
      ensureUnusedMarker unusedMarker = unusedMarker :=
  ⟨by decide, (marker_present_no_insertion _ (by decide)).1⟩

/-- C6: when the secondary name-extraction regex finds no variable name in the
matched text, the `replacement` function returns the match itself (identity
replacement): the text at that match is unmodified, no error is raised, and
nothing is reported. -/
theorem replacement_identity_on_extraction_miss (indent assignment : Str)
    (h : searchExtract assignment = none) :
    replacement indent assignment = indent ++ assignment := by
  rw [replacement, h]

/-- C6 witness: the extraction regex finds nothing in `foo`. -/
theorem replacement_identity_on_extraction_miss_witness :
    searchExtract (strL "foo") = none ∧
      replacement (strL " ") (strL "foo") = strL " " ++ strL "foo" :=
  ⟨by decide, replacement_identity_on_extraction_miss _ _ (by decide)⟩

/-- C7: the seven rules run strictly in their declared order, each over the
output of the previous one; and within one rule the match set is the tiling of
the text as it existed before that rule ran (`subPieces` cuts exactly that text
into unmatched spans and matches, and the rule's output is that tiling with
each match replaced), so replacement text produced by the rule is never
re-scanned by the same rule. -/
theorem rules_apply_in_order_on_prior_text (s : Str) :
    applyPatterns s =
      reSub (declOf (.lit (strL "int")))
        (reSub (declOf (.lit (strL "EmberPackage*")))
          (reSub (declOf (.lit (strL "bool")))
            (reSub (declOf (.lit (strL "uint32_t")))
              (reSub (declOf tyEmberPtr)
                (reSub (declOf tyConstChar)
                  (reSub (declOf (.lit (strL "ember_value"))) s)))))) ∧
    ∀ p : RE, ((subPieces p s.length s).map pieceOrig).flatten = s ∧
      reSub p s = ((subPieces p s.length s).map pieceOut).flatten := by
  constructor
  · simp only [applyPatterns, patterns, List.foldl_cons, List.foldl_nil]
  · exact fun p => ⟨subPieces_tiles p s.length s, subScan_eq_pieces p s.length s⟩

/-- C8: any invocation with a wrong argument count (`len(sys.argv) != 2`)
prints the usage message to standard output, exits with status 1, and performs
no file operation at all. -/
theorem wrong_arg_count_usage_exit (argv : List String) (readRes : Option Str)
    (h : argv.length ≠ 2) :
    runMain argv readRes = ⟨[usageMsg], 1, []⟩ := by
  rw [runMain, if_neg h]

/-- C8 witness: invocation with zero positional arguments (argv is just the
script name). -/
theorem wrong_arg_count_usage_exit_witness :
    runMain ["comprehensive_fix.py"] none = ⟨[usageMsg], 1, []⟩ :=
  wrong_arg_count_usage_exit _ _ (by decide)

/-- C9: the file is read first; if the read fails the only file operation is
the failed read (the file is never opened for writing, so the data on disk is
untouched), and on success the single write carries the fully transformed text,
produced entirely in memory before the file is opened for writing. -/
theorem overwrite_only_after_success (fn : String) :
    (runFix fn none).ops = [FileOp.read fn] ∧
      ∀ content : Str, (runFix fn (some content)).ops =
        [FileOp.read fn, FileOp.write fn (fix_all_unused_variables content)] :=
  ⟨rfl, fun _ => rfl⟩

/-- C10: for every match of any of the seven primary declaration patterns, the
secondary name-extraction regex succeeds on the matched declaration text (each
pattern's leading type token reappears in the extraction alternation followed
by whitespace and the identifier), so the identity-replacement branch is
unreachable on primary matches: every match receives an `UNUSED` annotation. -/
theorem every_pattern_match_extracts_name :
    ∀ p ∈ patterns, ∀ s a b rest : Str,
      matchGroups (.plus wsChar) p s = some (a, b, rest) →
      ∃ nm, searchExtract b = some nm ∧
        replacement a b = a ++ b ++ ('\n' :: (a ++ (strL "UNUSED(" ++ nm ++ strL ");"))) := by
  intro p hp
  simp only [patterns, List.mem_cons, List.not_mem_nil, or_false] at hp
  rcases hp with rfl | rfl | rfl | rfl | rfl | rfl | rfl
  · exact fun s a b rest h => extract_of_declMatch (tyGood_of_lit (by decide) extAlt_mem_emberValue) h
  · exact fun s a b rest h => extract_of_declMatch tyGood_constChar h
  · exact fun s a b rest h => extract_of_declMatch tyGood_emberPtr h
  · exact fun s a b rest h => extract_of_declMatch (tyGood_of_lit (by decide) extAlt_mem_uint32) h
  · exact fun s a b rest h => extract_of_declMatch (tyGood_of_lit (by decide) extAlt_mem_bool) h
  · exact fun s a b rest h => extract_of_declMatch (tyGood_of_lit (by decide) extAlt_mem_emberPackage) h
  · exact fun s a b rest h => extract_of_declMatch (tyGood_of_lit (by decide) extAlt_mem_int) h

/-- C10 witness: the `int` pattern matching ` int x = 5;`. -/
theorem every_pattern_match_extracts_name_witness :
    ∃ nm, searchExtract (strL "int x = 5;") = some nm ∧
      replacement (strL " ") (strL "int x = 5;") =
        strL " " ++ strL "int x = 5;" ++
          ('\n' :: (strL " " ++ (strL "UNUSED(" ++ nm ++ strL ");"))) :=
  every_pattern_match_extracts_name (declOf (.lit (strL "int"))) (by simp [patterns])
    (strL " int x = 5;") (strL " ") (strL "int x = 5;") [] (by decide)
